import Mathlib

/- Verification of the two core components of the mac_screenshot repository:
   the shortcut codec (src/shortcutFormat.ts) and the image stitcher
   (the stitch module and its event listener in App.tsx).

   JavaScript strings are modelled as lists of characters (`Str`); the
   ASCII-relevant parts of `trim`, `toLowerCase`, `toUpperCase`, `split`,
   `join` and global `replace` are embedded directly. -/

namespace MacScreenshot

/-- JavaScript strings, modelled as lists of characters. -/
abbrev Str := List Char

/-- Whitespace recognised by `String.prototype.trim` (ASCII fragment). -/
def isWhiteChar (c : Char) : Bool :=
  decide (c.toNat = 32 ∨ c.toNat = 9 ∨ c.toNat = 10 ∨ c.toNat = 13)

/-- ASCII lower-casing of one character, as done by `toLowerCase`. -/
def lowerChar (c : Char) : Char :=
  if 65 ≤ c.toNat ∧ c.toNat ≤ 90 then Char.ofNat (c.toNat + 32) else c

/-- ASCII upper-casing of one character, as done by `toUpperCase`. -/
def upperChar (c : Char) : Char :=
  if 97 ≤ c.toNat ∧ c.toNat ≤ 122 then Char.ofNat (c.toNat - 32) else c

/-- `s.toLowerCase()`. -/
def lowerStr (s : Str) : Str := s.map lowerChar

/-- `s.toUpperCase()`. -/
def upperStr (s : Str) : Str := s.map upperChar

/-- `s.trim()`: strip leading and trailing whitespace. -/
def trimStr (s : Str) : Str :=
  ((s.dropWhile isWhiteChar).reverse.dropWhile isWhiteChar).reverse

/-- Worker for `s.split("+")`: accumulates the current token (reversed). -/
def splitPlusAux : Str → Str → List Str
  | [], acc => [acc.reverse]
  | c :: rest, acc =>
      if c = '+' then acc.reverse :: splitPlusAux rest []
      else splitPlusAux rest (c :: acc)

/-- `s.split("+")`. -/
def splitPlus (s : Str) : List Str := splitPlusAux s []

/-- `parts.join("+")`. -/
def joinPlus : List Str → Str
  | [] => []
  | [s] => s
  | s :: r :: rs => s ++ '+' :: joinPlus (r :: rs)

/-- `MODIFIER_ORDER` from src/shortcutFormat.ts line 1. -/
def MODIFIER_ORDER : List Str := ["Cmd".data, "Shift".data, "Alt".data, "Ctrl".data]

/-- `MODIFIER_ALIASES` lookup from src/shortcutFormat.ts lines 2-12:
    maps a (lower-cased) token to its canonical modifier, if any. -/
def modifierAlias (s : Str) : Option Str :=
  if s = "cmd".data ∨ s = "command".data ∨ s = "super".data ∨ s = "meta".data then
    some ("Cmd".data)
  else if s = "shift".data then some ("Shift".data)
  else if s = "alt".data ∨ s = "option".data then some ("Alt".data)
  else if s = "ctrl".data ∨ s = "control".data then some ("Ctrl".data)
  else none

/-- The test `/^digit[0-9]$/.test(lower)` together with the result
    `lower.replace("digit", "")` (src/shortcutFormat.ts lines 55-57). -/
def digitName : Str → Option Str
  | 'd' :: 'i' :: 'g' :: 'i' :: 't' :: c :: [] =>
      if 48 ≤ c.toNat ∧ c.toNat ≤ 57 then some [c] else none
  | _ => none

/-- The test `/^[0-9]$/.test(trimmed)` with result `trimmed`
    (src/shortcutFormat.ts lines 58-60). -/
def singleDigitTok : Str → Option Str
  | c :: [] => if 48 ≤ c.toNat ∧ c.toNat ≤ 57 then some [c] else none
  | _ => none

/-- The test `/^key[a-z]$/.test(lower)` with result
    `lower.replace("key", "").toUpperCase()` (src/shortcutFormat.ts lines 61-63). -/
def keyLetter : Str → Option Str
  | 'k' :: 'e' :: 'y' :: c :: [] =>
      if 97 ≤ c.toNat ∧ c.toNat ≤ 122 then some [upperChar c] else none
  | _ => none

/-- The test `/^[a-z]$/.test(lower)` with result `lower.toUpperCase()`
    (src/shortcutFormat.ts lines 64-66). -/
def singleLetter : Str → Option Str
  | c :: [] => if 97 ≤ c.toNat ∧ c.toNat ≤ 122 then some [upperChar c] else none
  | _ => none

/-- The test `/^f([1-9]|1[0-2])$/.test(lower)` with result `lower.toUpperCase()`
    (src/shortcutFormat.ts lines 67-69). -/
def fKey : Str → Option Str
  | 'f' :: c :: [] =>
      if 49 ≤ c.toNat ∧ c.toNat ≤ 57 then some (upperStr ['f', c]) else none
  | 'f' :: '1' :: c :: [] =>
      if 48 ≤ c.toNat ∧ c.toNat ≤ 50 then some (upperStr ['f', '1', c]) else none
  | _ => none

/-- The final `switch (lower)` of `normalizeKeyToken`
    (src/shortcutFormat.ts lines 71-85). -/
def namedKey (lower : Str) : Option Str :=
  if lower = "space".data then some ("Space".data)
  else if lower = "enter".data then some ("Enter".data)
  else if lower = "tab".data then some ("Tab".data)
  else if lower = "escape".data ∨ lower = "esc".data then some ("Escape".data)
  else if lower = "backspace".data then some ("Backspace".data)
  else none

/-- The named-punctuation cascade of `normalizeKeyToken`
    (src/shortcutFormat.ts lines 19-54), over the lower-cased and trimmed
    forms of the token. -/
def punctuationKey (lower trimmed : Str) : Option Str :=
  if lower = "minus".data ∨ trimmed = ['-'] then some ['-']
  else if lower = "equal".data ∨ lower = "equals".data ∨ trimmed = ['='] then some ['=']
  else if lower = "bracketleft".data ∨ lower = "lbracket".data ∨ trimmed = ['['] then some ['[']
  else if lower = "bracketright".data ∨ lower = "rbracket".data ∨ trimmed = [']'] then some [']']
  else if lower = "semicolon".data ∨ trimmed = [';'] then some [';']
  else if lower = "quote".data ∨ trimmed = [Char.ofNat 39] then some [Char.ofNat 39]
  else if lower = "comma".data ∨ trimmed = [','] then some [',']
  else if lower = "period".data ∨ trimmed = ['.'] then some ['.']
  else if lower = "slash".data ∨ trimmed = ['/'] then some ['/']
  else if lower = "backslash".data ∨ trimmed = [Char.ofNat 92] then some [Char.ofNat 92]
  else if lower = "backquote".data ∨ lower = "grave".data ∨ trimmed = [Char.ofNat 96] then
    some [Char.ofNat 96]
  else if lower = "intlbackslash".data then some [Char.ofNat 92]
  else none

/-- `normalizeKeyToken` from src/shortcutFormat.ts lines 14-86: empty-check,
    then named punctuation, then the regex family tests in source order,
    then the named control keys; the first test that recognises the token
    decides the result. -/
def normalizeKeyToken (token : Str) : Option Str :=
  if trimStr token = [] then none
  else
    punctuationKey (lowerStr (trimStr token)) (trimStr token) <|>
    digitName (lowerStr (trimStr token)) <|>
    singleDigitTok (trimStr token) <|>
    keyLetter (lowerStr (trimStr token)) <|>
    singleLetter (lowerStr (trimStr token)) <|>
    fKey (lowerStr (trimStr token)) <|>
    namedKey (lowerStr (trimStr token))

/-- The token list of `normalizeShortcutString`
    (src/shortcutFormat.ts lines 91-94): split on `+`, trim each part,
    drop empty parts. -/
def canonicalParts (shortcut : Str) : List Str :=
  ((splitPlus shortcut).map trimStr).filter (fun p => !p.isEmpty)

/-- The `for (const part of parts)` loop of `normalizeShortcutString`
    (src/shortcutFormat.ts lines 101-117), carrying the accumulated modifier
    list and the key slot; `none` is the early `return null`. -/
def processParts : List Str → List Str → Option Str → Option (List Str × Option Str)
  | [], mods, okey => some (mods, okey)
  | p :: rest, mods, okey =>
      match modifierAlias (lowerStr p) with
      | some m => processParts rest (mods ++ [m]) okey
      | none =>
        match okey with
        | some _ => none
        | none =>
          match normalizeKeyToken p with
          | none => none
          | some k => processParts rest mods (some k)

/-- `normalizeShortcutString` from src/shortcutFormat.ts lines 88-123. -/
def normalizeShortcutString (shortcut : Str) : Option Str :=
  if shortcut = [] then none
  else if (canonicalParts shortcut).length < 2 then none
  else
    match processParts (canonicalParts shortcut) [] none with
    | none => none
    | some (mods, okey) =>
      match okey with
      | none => none
      | some key =>
        if mods = [] then none
        else
          some (joinPlus ((MODIFIER_ORDER.filter (fun m => decide (m ∈ mods))) ++ [key]))

/-- Whether `pat` is a prefix of `s` (character-wise). -/
def leadsWith : Str → Str → Bool
  | [], _ => true
  | _ :: _, [] => false
  | p :: ps, c :: cs => decide (p = c) && leadsWith ps cs

/-- Fuel-driven worker for global string replacement: one unit of fuel is
    spent per consumed source character, so `s.length` fuel processes all
    of `s`. Models `String.prototype.replace` with a global pattern. -/
def replFuel (pat rep : Str) : Nat → Str → Str
  | 0, s => s
  | _ + 1, [] => []
  | n + 1, c :: rest =>
      if pat ≠ [] ∧ leadsWith pat (c :: rest) = true then
        rep ++ replFuel pat rep n ((c :: rest).drop pat.length)
      else c :: replFuel pat rep n rest

/-- `s.replace(pat-as-global-regex, rep)`: replace every (non-overlapping,
    left-to-right) occurrence of `pat` in `s` by `rep`. -/
def replaceStr (pat rep s : Str) : Str := replFuel pat rep s.length s

/-- The rendering chain of `formatShortcutForDisplay`
    (src/shortcutFormat.ts lines 127-132): modifier names to glyphs, then
    all `+` delimiters removed. -/
def renderShortcutGlyphs (s : Str) : Str :=
  replaceStr ['+'] []
    (replaceStr ("Ctrl".data) ['⌃']
      (replaceStr ("Alt".data) ['⌥']
        (replaceStr ("Shift".data) ['⇧']
          (replaceStr ("Cmd".data) ['⌘'] s))))

/-- `formatShortcutForDisplay` from src/shortcutFormat.ts lines 125-133. -/
def formatShortcutForDisplay (shortcut : Str) : Str :=
  renderShortcutGlyphs ((normalizeShortcutString shortcut).getD shortcut)

/-- A canonical key token is a fixed point of the codec: re-normalising it
    yields itself, it is not a modifier alias, and it survives the
    tokeniser unchanged (non-empty, trim-stable, free of `+`). -/
abbrev KeyGood (k : Str) : Prop :=
  normalizeKeyToken k = some k ∧ modifierAlias (lowerStr k) = none ∧
    k ≠ [] ∧ trimStr k = k ∧ '+' ∉ k

/-- Number of tokens that are not modifier aliases (candidate key tokens). -/
def nonModifierCount (parts : List Str) : Nat :=
  parts.countP (fun p => decide (modifierAlias (lowerStr p) = none))

/-- `DIVIDER_HEIGHT` from the stitch module, line 3. -/
def DIVIDER_HEIGHT : Nat := 30

/-- `BACKGROUND_COLOR` from the stitch module, line 4. -/
def BACKGROUND_COLOR : String := "#ffffff"

/-- `LINE_COLOR` from the stitch module, line 5. -/
def LINE_COLOR : String := "#333333"

/-- A decoded image, reduced to its natural pixel dimensions (the only
    attributes of `HTMLImageElement` the stitcher reads). -/
structure ImgDim where
  width : Nat
  height : Nat
deriving DecidableEq

/-- `Math.max(...images.map((img) => img.width))` for a non-empty list
    (the stitcher is only invoked on at least one decoded image). -/
def stitchMaxWidth (images : List ImgDim) : Nat :=
  (images.map ImgDim.width).foldr max 0

/-- `Math.max(...images.map((img) => img.height))` for a non-empty list. -/
def stitchMaxHeight (images : List ImgDim) : Nat :=
  (images.map ImgDim.height).foldr max 0

/-- `totalHeight` from the stitch module, lines 28-30:
    `images.reduce((sum, img) => sum + img.height, 0) + (images.length - 1) * DIVIDER_HEIGHT`. -/
def stitchTotalHeight (images : List ImgDim) : Int :=
  ((images.map ImgDim.height).sum : Int)
    + ((images.length : Int) - 1) * (DIVIDER_HEIGHT : Int)

/-- The dimension fields of `StitchResult` (stitch module, lines 7-13 and
    66-72); the encoded pixel data is modelled separately by the draw-command
    trace `stitchDraws`. -/
structure StitchMeta where
  width : Nat
  height : Int
  maxSingleImageWidth : Nat
  maxSingleImageHeight : Nat
deriving DecidableEq

/-- The metadata computed by `stitchImages` (stitch module, lines 25-34 and
    66-72): `maxWidth`, `totalHeight`, `maxSingleImageWidth = maxWidth`,
    `maxSingleImageHeight`. -/
def stitchMeta (images : List ImgDim) : StitchMeta :=
  { width := stitchMaxWidth images
    height := stitchTotalHeight images
    maxSingleImageWidth := stitchMaxWidth images
    maxSingleImageHeight := stitchMaxHeight images }

/-- One canvas-2D drawing operation issued by the stitcher. Coordinates are
    rationals because `xOffset = (maxWidth - img.width) / 2` may be a
    half-integer in JavaScript arithmetic. -/
inductive DrawCmd where
  | fillRect (color : String) (x y w h : ℚ)
  | drawImage (index : Nat) (x y : ℚ)
deriving DecidableEq

/-- The `for (let i = 0; i < images.length; i++)` loop of `stitchImages`
    (stitch module, lines 43-61): draw image `i` centered at `currentY`,
    and after every image except the last draw the 30px background band and
    the 12px dark bar at `currentY + Math.floor(DIVIDER_HEIGHT / 2) - 12 / 2`. -/
def stitchDrawLoop (maxWidth : Nat) : List ImgDim → Nat → Nat → List DrawCmd
  | [], _, _ => []
  | [img], i, currentY =>
      [DrawCmd.drawImage i (((maxWidth : ℚ) - (img.width : ℚ)) / 2) (currentY : ℚ)]
  | img :: r :: rs, i, currentY =>
      DrawCmd.drawImage i (((maxWidth : ℚ) - (img.width : ℚ)) / 2) (currentY : ℚ) ::
      DrawCmd.fillRect BACKGROUND_COLOR 0 ((currentY + img.height : Nat) : ℚ)
        (maxWidth : ℚ) (DIVIDER_HEIGHT : ℚ) ::
      DrawCmd.fillRect LINE_COLOR 0
        ((currentY + img.height + DIVIDER_HEIGHT / 2 - 12 / 2 : Nat) : ℚ)
        (maxWidth : ℚ) (12 : ℚ) ::
      stitchDrawLoop maxWidth (r :: rs) (i + 1) (currentY + img.height + DIVIDER_HEIGHT)

/-- The complete drawing trace of `stitchImages` (stitch module, lines
    40-61): the full-canvas white fill followed by the placement loop. -/
def stitchDraws (images : List ImgDim) : List DrawCmd :=
  DrawCmd.fillRect BACKGROUND_COLOR 0 0 ((stitchMaxWidth images : Nat) : ℚ)
      ((stitchTotalHeight images : Int) : ℚ) ::
    stitchDrawLoop (stitchMaxWidth images) images 0 0

/-- Recogniser for the dark separator bar fills. -/
def isSeparatorBar (c : DrawCmd) : Bool :=
  match c with
  | DrawCmd.fillRect col _ _ _ _ => decide (col = LINE_COLOR)
  | _ => false

/-- Top y-coordinate of the k-th placed image inside the composite: the
    heights of the earlier images plus one separator per earlier image. -/
def layoutTop : List ImgDim → Nat → Nat
  | _, 0 => 0
  | [], _ + 1 => 0
  | img :: rest, k + 1 => img.height + DIVIDER_HEIGHT + layoutTop rest k

/-- One invocation of the Tauri host bridge (`invoke(cmd, { filepath })`). -/
inductive HostCall where
  | invoke (cmd : String) (filepath : String)
deriving DecidableEq

/-- The host invocations performed by `stitchImages` itself (stitch module,
    lines 16-19): one `read_original_image_base64` call per input path. -/
def stitchImagesHostCalls (imagePaths : List String) : List HostCall :=
  imagePaths.map (fun path => HostCall.invoke "read_original_image_base64" path)

/-- Modelled from the spec: `MAX_STITCH_IMAGES` is imported from
    `src/constants.ts`, which is absent from the excerpted sources; the spec
    fixes the maximum stitch input count at 8. -/
def MAX_STITCH_IMAGES : Nat := 8

/-- Decoding of a list of sources (`Promise.all` over
    `read_original_image_base64` + `loadImage`): any single failure fails
    the whole batch. The decoder is abstract. -/
def decodeAll (decode : String → Option ImgDim) : List String → Option (List ImgDim)
  | [] => some []
  | p :: rest =>
      match decode p with
      | none => none
      | some img =>
        match decodeAll decode rest with
        | none => none
        | some imgs => some (img :: imgs)

/-- Outcome of one run of the `stitch-images` event listener
    (App.tsx, lines 151-186). -/
inductive StitchOutcome where
  | skippedTooFew
  | tooManyImages
  | decodeFailed
  | ok (result : StitchMeta)
deriving DecidableEq

/-- The `stitch-images` listener of App.tsx (lines 151-186): fewer than 2
    selected paths clears the lock and returns; more than `MAX_STITCH_IMAGES`
    throws "Too many images" before `stitchImages` (and hence any decode) is
    reached; otherwise every source is decoded and the composite is built. -/
def stitchImagesListener (decode : String → Option ImgDim) (paths : List String) :
    StitchOutcome :=
  if paths.length < 2 then StitchOutcome.skippedTooFew
  else if MAX_STITCH_IMAGES < paths.length then StitchOutcome.tooManyImages
  else
    match decodeAll decode paths with
    | none => StitchOutcome.decodeFailed
    | some images => StitchOutcome.ok (stitchMeta images)

lemma le_foldrMax {l : List Nat} {x : Nat} (hx : x ∈ l) : x ≤ l.foldr max 0 := by
  induction l with
  | nil => cases hx
  | cons a t ih =>
    rcases List.mem_cons.mp hx with rfl | hmem
    · exact le_max_left _ _
    · exact le_trans (ih hmem) (le_max_right _ _)

lemma foldrMax_mem {l : List Nat} (h : l ≠ []) : l.foldr max 0 ∈ l := by
  induction l with
  | nil => exact absurd rfl h
  | cons a t ih =>
    cases t with
    | nil => simp
    | cons b u =>
      have hfold : (a :: b :: u).foldr max 0 = max a ((b :: u).foldr max 0) := rfl
      rcases max_choice a ((b :: u).foldr max 0) with hmax | hmax
      · rw [hfold, hmax]; exact List.mem_cons_self _ _
      · rw [hfold, hmax]; exact List.mem_cons_of_mem _ (ih (by simp))

/-- Claim C1: for every non-empty list of successfully decoded sources, the
    composite width is the maximum source width, the composite height is the
    sum of the source heights plus `(count - 1) * 30`, and
    `maxSingleImageWidth` / `maxSingleImageHeight` are the maximum width and
    maximum height taken independently across all sources. -/
theorem claim_C1_stitch_dimensions (images : List ImgDim) (hne : images ≠ []) :
    (∀ img ∈ images, img.width ≤ (stitchMeta images).width) ∧
    (∃ img ∈ images, img.width = (stitchMeta images).width) ∧
    (stitchMeta images).height =
      ((images.map ImgDim.height).sum : Int) + ((images.length : Int) - 1) * 30 ∧
    (∀ img ∈ images, img.width ≤ (stitchMeta images).maxSingleImageWidth) ∧
    (∃ img ∈ images, img.width = (stitchMeta images).maxSingleImageWidth) ∧
    (∀ img ∈ images, img.height ≤ (stitchMeta images).maxSingleImageHeight) ∧
    (∃ img ∈ images, img.height = (stitchMeta images).maxSingleImageHeight) := by
  have hwmem : stitchMaxWidth images ∈ images.map ImgDim.width :=
    foldrMax_mem (by simpa using hne)
  have hhmem : stitchMaxHeight images ∈ images.map ImgDim.height :=
    foldrMax_mem (by simpa using hne)
  obtain ⟨iw, hiw, hiww⟩ := List.mem_map.mp hwmem
  obtain ⟨ih, hih, hihh⟩ := List.mem_map.mp hhmem
  refine ⟨?_, ⟨iw, hiw, hiww⟩, ?_, ?_, ⟨iw, hiw, hiww⟩, ?_, ⟨ih, hih, hihh⟩⟩
  · intro img hmem
    exact le_foldrMax (List.mem_map.mpr ⟨img, hmem, rfl⟩)
  · simp [stitchMeta, stitchTotalHeight, DIVIDER_HEIGHT]
  · intro img hmem
    exact le_foldrMax (List.mem_map.mpr ⟨img, hmem, rfl⟩)
  · intro img hmem
    exact le_foldrMax (List.mem_map.mpr ⟨img, hmem, rfl⟩)

theorem claim_C1_witness :
    (stitchMeta [(⟨100, 50⟩ : ImgDim), ⟨200, 80⟩]).height =
      ((([(⟨100, 50⟩ : ImgDim), ⟨200, 80⟩] : List ImgDim).map ImgDim.height).sum : Int) +
        ((([(⟨100, 50⟩ : ImgDim), ⟨200, 80⟩] : List ImgDim).length : Int) - 1) * 30 :=
  (claim_C1_stitch_dimensions [⟨100, 50⟩, ⟨200, 80⟩] (by decide)).2.2.1

/-- Claim C6: whenever more than `MAX_STITCH_IMAGES` (8) paths are selected,
    the stitch flow fails with the "Too many images" outcome before any
    decoding work begins — the outcome is `tooManyImages` for *every*
    decoder, in particular for one that would fail on a selected source. -/
theorem claim_C6_too_many_images :
    (∀ (decode : String → Option ImgDim) (paths : List String),
        MAX_STITCH_IMAGES < paths.length →
        stitchImagesListener decode paths = StitchOutcome.tooManyImages) ∧
    (∀ (decode : String → Option ImgDim) (paths : List String) (p : String),
        paths.length = 9 → p ∈ paths → decode p = none →
        stitchImagesListener decode paths = StitchOutcome.tooManyImages) := by
  constructor
  · intro decode paths hlen
    have hge : ¬ paths.length < 2 := by
      simp only [MAX_STITCH_IMAGES] at hlen; omega
    simp [stitchImagesListener, hge, hlen]
  · intro decode paths p hlen _ _
    have hgt : MAX_STITCH_IMAGES < paths.length := by
      simp only [MAX_STITCH_IMAGES]; omega
    have hge : ¬ paths.length < 2 := by omega
    simp [stitchImagesListener, hge, hgt]

theorem claim_C6_witness :
    stitchImagesListener (fun _ => none)
      ["a", "b", "c", "d", "e", "f", "g", "h", "i"] = StitchOutcome.tooManyImages :=
  claim_C6_too_many_images.1 (fun _ => none) _ (by decide)

/-- Claim C9 counterexample: the claim says the Stitcher performs no host
    calls itself and receives in-memory buffers already fetched by the
    caller; in the code, `stitchImages` receives file *paths* and itself
    invokes `read_original_image_base64` once per path, so its host-call
    trace on a concrete two-path input is non-empty. -/
theorem claim_C9_counterexample :
    stitchImagesHostCalls ["shot1.png", "shot2.png"] =
      [HostCall.invoke "read_original_image_base64" "shot1.png",
       HostCall.invoke "read_original_image_base64" "shot2.png"] ∧
    stitchImagesHostCalls ["shot1.png", "shot2.png"] ≠ [] := by
  exact ⟨by decide, by decide⟩

/-- Claim C9 (amended): the Stitcher does perform host calls — exactly one
    `read_original_image_base64` fetch per input path and nothing else; in
    particular it performs no persistence call (`save_stitch_temp` is the
    caller's job, to which the result is returned). -/
theorem claim_C9_host_calls (paths : List String) :
    (stitchImagesHostCalls paths).length = paths.length ∧
    (∀ c ∈ stitchImagesHostCalls paths,
        ∃ p ∈ paths, c = HostCall.invoke "read_original_image_base64" p) ∧
    (∀ c ∈ stitchImagesHostCalls paths,
        ∀ arg : String, c ≠ HostCall.invoke "save_stitch_temp" arg) := by
  refine ⟨by simp [stitchImagesHostCalls], ?_, ?_⟩
  · intro c hc
    obtain ⟨p, hp, rfl⟩ := List.mem_map.mp hc
    exact ⟨p, hp, rfl⟩
  · intro c hc arg
    obtain ⟨p, hp, rfl⟩ := List.mem_map.mp hc
    intro hcontra
    simp at hcontra

theorem claim_C9_witness :
    (stitchImagesHostCalls ["a.png"]).length = (["a.png"] : List String).length :=
  (claim_C9_host_calls ["a.png"]).1

/-- Claim C10: a source list of exactly one decoded image stitches as a
    pass-through — the composite has that image's dimensions, the draw
    trace is just the background fill and the single centered image (no
    separator band), and both max-single fields equal its dimensions. -/
theorem claim_C10_single_image_passthrough (img : ImgDim) :
    stitchMeta [img] = ⟨img.width, (img.height : Int), img.width, img.height⟩ ∧
    stitchDraws [img] =
      [DrawCmd.fillRect BACKGROUND_COLOR 0 0 (img.width : ℚ) (img.height : ℚ),
       DrawCmd.drawImage 0 0 0] ∧
    (stitchDraws [img]).countP isSeparatorBar = 0 := by
  have hw : stitchMaxWidth [img] = img.width := by
    simp [stitchMaxWidth]
  have hh : stitchTotalHeight [img] = (img.height : Int) := by
    simp [stitchTotalHeight]
  refine ⟨?_, ?_, ?_⟩
  · simp [stitchMeta, hw, hh, stitchMaxHeight]
  · simp [stitchDraws, stitchDrawLoop, hw, hh]
  · simp [stitchDraws, stitchDrawLoop, List.countP_cons, isSeparatorBar,
      BACKGROUND_COLOR, LINE_COLOR]

theorem claim_C10_witness :
    stitchMeta [⟨7, 5⟩] = ⟨7, 5, 7, 5⟩ :=
  (claim_C10_single_image_passthrough ⟨7, 5⟩).1


lemma drawCmd_image_congr {i j : Nat} {x u : ℚ} {a b : Nat} (hij : i = j) (hxu : x = u)
    (hab : a = b) : DrawCmd.drawImage i x (a : ℚ) = DrawCmd.drawImage j u (b : ℚ) := by
  subst hij; subst hxu; subst hab; rfl

lemma drawCmd_rect_congr {col : String} {x w h : ℚ} {a b : Nat} (hab : a = b) :
    DrawCmd.fillRect col x (a : ℚ) w h = DrawCmd.fillRect col x (b : ℚ) w h := by
  subst hab; rfl

lemma get_cons_zero_eq {α : Type} (a : α) (l : List α) (h : 0 < (a :: l).length) :
    (a :: l).get ⟨0, h⟩ = a := rfl

lemma layoutTop_succ (l : List ImgDim) :
    ∀ (k : Nat) (hk : k < l.length),
      layoutTop l (k + 1) = layoutTop l k + (l.get ⟨k, hk⟩).height + DIVIDER_HEIGHT := by
  induction l with
  | nil => intro k hk; cases hk
  | cons img rest ih =>
    intro k hk
    cases k with
    | zero =>
      simp only [layoutTop, get_cons_zero_eq]
      omega
    | succ k =>
      have hk' : k < rest.length := Nat.lt_of_succ_lt_succ hk
      have hrec := ih k hk'
      simp only [layoutTop, List.get_cons_succ, hrec]
      omega

lemma mem_stitchDrawLoop (W : Nat) :
    ∀ (l : List ImgDim) (i y : Nat) (c : DrawCmd),
      c ∈ stitchDrawLoop W l i y ↔
        ((∃ k, ∃ hk : k < l.length,
            c = DrawCmd.drawImage (i + k)
                  (((W : ℚ) - ((l.get ⟨k, hk⟩).width : ℚ)) / 2)
                  ((y + layoutTop l k : Nat) : ℚ)) ∨
         (∃ k, ∃ hk : k + 1 < l.length,
            c = DrawCmd.fillRect BACKGROUND_COLOR 0
                  ((y + layoutTop l k + (l.get ⟨k, Nat.lt_of_succ_lt hk⟩).height : Nat) : ℚ)
                  (W : ℚ) ((DIVIDER_HEIGHT : Nat) : ℚ) ∨
            c = DrawCmd.fillRect LINE_COLOR 0
                  ((y + layoutTop l k + (l.get ⟨k, Nat.lt_of_succ_lt hk⟩).height + 9 : Nat) : ℚ)
                  (W : ℚ) (12 : ℚ))) := by
  intro l
  induction l with
  | nil =>
    intro i y c
    simp [stitchDrawLoop]
  | cons img rest ih =>
    intro i y c
    cases rest with
    | nil =>
      constructor
      · intro h
        have hc : c = DrawCmd.drawImage i (((W : ℚ) - (img.width : ℚ)) / 2) (y : ℚ) := by
          simpa [stitchDrawLoop] using h
        subst hc
        refine Or.inl ⟨0, by simp, ?_⟩
        exact (drawCmd_image_congr (by omega) (by simp) (by simp [layoutTop])).symm
      · rintro (⟨k, hk, rfl⟩ | ⟨k, hk, _⟩)
        · have hk1 : k < 1 := by simpa using hk
          have hk0 : k = 0 := by omega
          subst hk0
          have heq : DrawCmd.drawImage (i + 0)
                (((W : ℚ) - ((([img] : List ImgDim).get ⟨0, hk⟩).width : ℚ)) / 2)
                ((y + layoutTop [img] 0 : Nat) : ℚ)
              = DrawCmd.drawImage i (((W : ℚ) - (img.width : ℚ)) / 2) (y : ℚ) :=
            drawCmd_image_congr (by omega) (by simp) (by simp [layoutTop])
          rw [heq]
          simp [stitchDrawLoop]
        · simp at hk
    | cons r rs =>
      have hcons : ∀ k, layoutTop (img :: r :: rs) (k + 1) =
          img.height + DIVIDER_HEIGHT + layoutTop (r :: rs) k := fun _ => rfl
      simp only [stitchDrawLoop, List.mem_cons]
      rw [ih (i + 1) (y + img.height + DIVIDER_HEIGHT) c]
      constructor
      · rintro (rfl | rfl | rfl | (⟨k, hk, rfl⟩ | ⟨k, hk, hor⟩))
        · refine Or.inl ⟨0, by simp, ?_⟩
          exact (drawCmd_image_congr (by omega) (by simp) (by simp [layoutTop])).symm
        · refine Or.inr ⟨0, by simp, Or.inl ?_⟩
          exact (drawCmd_rect_congr (by simp [layoutTop])).symm
        · refine Or.inr ⟨0, by simp, Or.inr ?_⟩
          refine (drawCmd_rect_congr ?_).symm
          simp only [layoutTop, get_cons_zero_eq, DIVIDER_HEIGHT]
          omega
        · refine Or.inl ⟨k + 1, by simp only [List.length_cons] at hk ⊢; omega, ?_⟩
          refine (drawCmd_image_congr (by omega) (by simp) ?_).symm
          rw [hcons k]
          omega
        · refine Or.inr ⟨k + 1, by simp only [List.length_cons] at hk ⊢; omega, ?_⟩
          rcases hor with rfl | rfl
          · refine Or.inl ((drawCmd_rect_congr ?_).symm)
            simp only [List.get_cons_succ]
            rw [hcons k]
            omega
          · refine Or.inr ((drawCmd_rect_congr ?_).symm)
            simp only [List.get_cons_succ]
            rw [hcons k]
            omega
      · rintro (⟨k, hk, rfl⟩ | ⟨k, hk, hor⟩)
        · cases k with
          | zero =>
            refine Or.inl ?_
            exact drawCmd_image_congr (by omega) (by simp) (by simp [layoutTop])
          | succ k =>
            refine Or.inr (Or.inr (Or.inr (Or.inl
              ⟨k, by simp only [List.length_cons] at hk ⊢; omega, ?_⟩)))
            refine drawCmd_image_congr (by omega) (by simp) ?_
            rw [hcons k]
            omega
        · cases k with
          | zero =>
            rcases hor with rfl | rfl
            · exact Or.inr (Or.inl (drawCmd_rect_congr (by simp [layoutTop])))
            · refine Or.inr (Or.inr (Or.inl (drawCmd_rect_congr ?_)))
              simp only [layoutTop, get_cons_zero_eq, DIVIDER_HEIGHT]
              omega
          | succ k =>
            refine Or.inr (Or.inr (Or.inr (Or.inr
              ⟨k, by simp only [List.length_cons] at hk ⊢; omega, ?_⟩)))
            rcases hor with rfl | rfl
            · refine Or.inl (drawCmd_rect_congr ?_)
              simp only [List.get_cons_succ]
              rw [hcons k]
              omega
            · refine Or.inr (drawCmd_rect_congr ?_)
              simp only [List.get_cons_succ]
              rw [hcons k]
              omega


lemma countP_isSeparatorBar_loop (W : Nat) :
    ∀ (l : List ImgDim) (i y : Nat), l ≠ [] →
      (stitchDrawLoop W l i y).countP isSeparatorBar = l.length - 1 := by
  intro l
  induction l with
  | nil => intro i y h; exact absurd rfl h
  | cons img rest ih =>
    intro i y _
    cases rest with
    | nil => simp [stitchDrawLoop, List.countP_cons, isSeparatorBar]
    | cons r rs =>
      have hrec := ih (i + 1) (y + img.height + DIVIDER_HEIGHT) (by simp)
      simp only [stitchDrawLoop, List.countP_cons, hrec, isSeparatorBar,
        BACKGROUND_COLOR, LINE_COLOR]
      simp

/-- Claim C7: in every stitched output's drawing trace, the canvas is first
    filled with solid white, image `k` is drawn at vertical offset
    `layoutTop k` (top-to-bottom in input order, each next image exactly one
    image-height plus one separator lower), and every placed image's left
    offset is `(compositeWidth - imageWidth) / 2`, within half a pixel. -/
theorem claim_C7_background_order_centering (images : List ImgDim) :
    (stitchDraws images).head? =
      some (DrawCmd.fillRect BACKGROUND_COLOR 0 0 ((stitchMaxWidth images : Nat) : ℚ)
        ((stitchTotalHeight images : Int) : ℚ)) ∧
    BACKGROUND_COLOR = "#ffffff" ∧
    (∀ (k : Nat) (hk : k < images.length),
        DrawCmd.drawImage k
          (((stitchMaxWidth images : ℚ) - ((images.get ⟨k, hk⟩).width : ℚ)) / 2)
          ((layoutTop images k : Nat) : ℚ) ∈ stitchDraws images) ∧
    (∀ (k : Nat) (hk : k < images.length),
        layoutTop images (k + 1) =
          layoutTop images k + (images.get ⟨k, hk⟩).height + DIVIDER_HEIGHT) ∧
    (∀ c ∈ stitchDraws images, ∀ (idx : Nat) (x yq : ℚ),
        c = DrawCmd.drawImage idx x yq →
        ∃ hk : idx < images.length,
          |x - (((stitchMaxWidth images : ℚ) - ((images.get ⟨idx, hk⟩).width : ℚ)) / 2)| ≤
            1 / 2) := by
  refine ⟨rfl, rfl, ?_, ?_, ?_⟩
  · intro k hk
    refine List.mem_cons_of_mem _ ?_
    refine (mem_stitchDrawLoop (stitchMaxWidth images) images 0 0 _).mpr
      (Or.inl ⟨k, hk, ?_⟩)
    exact drawCmd_image_congr (by omega) rfl (by omega)
  · intro k hk
    exact layoutTop_succ images k hk
  · intro c hc idx x yq hceq
    subst hceq
    rcases List.mem_cons.mp hc with hbg | hloop
    · exact absurd hbg (by simp)
    · rcases (mem_stitchDrawLoop _ images 0 0 _).mp hloop with
        ⟨k, hk, hchar⟩ | ⟨k, hk, hchar | hchar⟩
      · injection hchar with h1 h2 h3
        refine ⟨by omega, ?_⟩
        have hidx : idx = k := by omega
        subst hidx
        rw [h2]
        simp
      · exact absurd hchar (by simp)
      · exact absurd hchar (by simp)

theorem claim_C7_witness :
    (stitchDraws [(⟨100, 50⟩ : ImgDim), ⟨200, 80⟩]).head? =
      some (DrawCmd.fillRect BACKGROUND_COLOR 0 0
        ((stitchMaxWidth [(⟨100, 50⟩ : ImgDim), ⟨200, 80⟩] : Nat) : ℚ)
        ((stitchTotalHeight [(⟨100, 50⟩ : ImgDim), ⟨200, 80⟩] : Int) : ℚ)) :=
  (claim_C7_background_order_centering _).1

/-- Claim C8: with n ≥ 2 sources, exactly n-1 separator bars are drawn;
    between each adjacent pair of images (band top = bottom of image k,
    next image starts one band lower) lies a 30px band filled with the
    background color carrying a full-canvas-width 12px bar in the dark line
    color, vertically centered in the band (offset (30-12)/2); and every
    dark bar in the trace is one of these n-1 between-pair bars (none after
    the last image). -/
theorem claim_C8_separators (images : List ImgDim) (hn : 2 ≤ images.length) :
    ((stitchDraws images).countP isSeparatorBar = images.length - 1) ∧
    (∀ (k : Nat) (hk : k + 1 < images.length),
        DrawCmd.fillRect BACKGROUND_COLOR 0
            ((layoutTop images k + (images.get ⟨k, Nat.lt_of_succ_lt hk⟩).height : Nat) : ℚ)
            ((stitchMaxWidth images : Nat) : ℚ) ((DIVIDER_HEIGHT : Nat) : ℚ)
          ∈ stitchDraws images ∧
        DrawCmd.fillRect LINE_COLOR 0
            ((layoutTop images k + (images.get ⟨k, Nat.lt_of_succ_lt hk⟩).height
                + (DIVIDER_HEIGHT - 12) / 2 : Nat) : ℚ)
            ((stitchMaxWidth images : Nat) : ℚ) (12 : ℚ)
          ∈ stitchDraws images) ∧
    (∀ c ∈ stitchDraws images, isSeparatorBar c = true →
        ∃ k, ∃ hk : k + 1 < images.length,
          c = DrawCmd.fillRect LINE_COLOR 0
              ((layoutTop images k + (images.get ⟨k, Nat.lt_of_succ_lt hk⟩).height
                  + (DIVIDER_HEIGHT - 12) / 2 : Nat) : ℚ)
              ((stitchMaxWidth images : Nat) : ℚ) (12 : ℚ)) := by
  have hne : images ≠ [] := by
    intro h
    rw [h] at hn
    simp at hn
  refine ⟨?_, ?_, ?_⟩
  · have hcnt := countP_isSeparatorBar_loop (stitchMaxWidth images) images 0 0 hne
    simp only [stitchDraws, List.countP_cons, hcnt, isSeparatorBar,
      BACKGROUND_COLOR, LINE_COLOR]
    simp
  · intro k hk
    constructor
    · refine List.mem_cons_of_mem _ ?_
      refine (mem_stitchDrawLoop (stitchMaxWidth images) images 0 0 _).mpr
        (Or.inr ⟨k, hk, Or.inl ?_⟩)
      exact drawCmd_rect_congr (by omega)
    · refine List.mem_cons_of_mem _ ?_
      refine (mem_stitchDrawLoop (stitchMaxWidth images) images 0 0 _).mpr
        (Or.inr ⟨k, hk, Or.inr ?_⟩)
      refine drawCmd_rect_congr ?_
      simp only [DIVIDER_HEIGHT]
      omega
  · intro c hc hbar
    rcases List.mem_cons.mp hc with hbg | hloop
    · rw [hbg] at hbar
      simp [isSeparatorBar, BACKGROUND_COLOR, LINE_COLOR] at hbar
    · rcases (mem_stitchDrawLoop _ images 0 0 _).mp hloop with
        ⟨k, hk, hchar⟩ | ⟨k, hk, hchar | hchar⟩
      · rw [hchar] at hbar
        simp [isSeparatorBar] at hbar
      · rw [hchar] at hbar
        simp [isSeparatorBar, BACKGROUND_COLOR, LINE_COLOR] at hbar
      · refine ⟨k, hk, ?_⟩
        rw [hchar]
        refine drawCmd_rect_congr ?_
        simp only [DIVIDER_HEIGHT]
        omega

theorem claim_C8_witness :
    (stitchDraws [(⟨100, 50⟩ : ImgDim), ⟨200, 80⟩]).countP isSeparatorBar =
      ([(⟨100, 50⟩ : ImgDim), ⟨200, 80⟩] : List ImgDim).length - 1 :=
  (claim_C8_separators _ (by decide)).1


lemma keyGood_digit : ∀ n, n < 58 → 48 ≤ n → KeyGood [Char.ofNat n] := by decide

lemma keyGood_upper : ∀ n, n < 91 → 65 ≤ n → KeyGood [Char.ofNat n] := by decide

lemma keyGood_fkey1 : ∀ n, n < 58 → 49 ≤ n → KeyGood ['F', Char.ofNat n] := by decide

lemma keyGood_fkey2 : ∀ n, n < 51 → 48 ≤ n → KeyGood ['F', '1', Char.ofNat n] := by decide

lemma upperChar_in_range {c : Char} (h : 97 ≤ c.toNat ∧ c.toNat ≤ 122) :
    upperChar c = Char.ofNat (c.toNat - 32) := by
  rw [upperChar, if_pos h]

lemma upperChar_out_range {c : Char} (h : ¬(97 ≤ c.toNat ∧ c.toNat ≤ 122)) :
    upperChar c = c := by
  rw [upperChar, if_neg h]

lemma punctuationKey_keyGood {a b k : Str} (h : punctuationKey a b = some k) :
    KeyGood k := by
  rw [punctuationKey] at h
  by_cases h1 : a = "minus".data ∨ b = ['-']
  · rw [if_pos h1] at h
    injection h with h
    subst h
    decide
  · rw [if_neg h1] at h
    by_cases h2 : a = "equal".data ∨ a = "equals".data ∨ b = ['=']
    · rw [if_pos h2] at h
      injection h with h
      subst h
      decide
    · rw [if_neg h2] at h
      by_cases h3 : a = "bracketleft".data ∨ a = "lbracket".data ∨ b = ['[']
      · rw [if_pos h3] at h
        injection h with h
        subst h
        decide
      · rw [if_neg h3] at h
        by_cases h4 : a = "bracketright".data ∨ a = "rbracket".data ∨ b = [']']
        · rw [if_pos h4] at h
          injection h with h
          subst h
          decide
        · rw [if_neg h4] at h
          by_cases h5 : a = "semicolon".data ∨ b = [';']
          · rw [if_pos h5] at h
            injection h with h
            subst h
            decide
          · rw [if_neg h5] at h
            by_cases h6 : a = "quote".data ∨ b = [Char.ofNat 39]
            · rw [if_pos h6] at h
              injection h with h
              subst h
              decide
            · rw [if_neg h6] at h
              by_cases h7 : a = "comma".data ∨ b = [',']
              · rw [if_pos h7] at h
                injection h with h
                subst h
                decide
              · rw [if_neg h7] at h
                by_cases h8 : a = "period".data ∨ b = ['.']
                · rw [if_pos h8] at h
                  injection h with h
                  subst h
                  decide
                · rw [if_neg h8] at h
                  by_cases h9 : a = "slash".data ∨ b = ['/']
                  · rw [if_pos h9] at h
                    injection h with h
                    subst h
                    decide
                  · rw [if_neg h9] at h
                    by_cases h10 : a = "backslash".data ∨ b = [Char.ofNat 92]
                    · rw [if_pos h10] at h
                      injection h with h
                      subst h
                      decide
                    · rw [if_neg h10] at h
                      by_cases h11 : a = "backquote".data ∨ a = "grave".data ∨ b = [Char.ofNat 96]
                      · rw [if_pos h11] at h
                        injection h with h
                        subst h
                        decide
                      · rw [if_neg h11] at h
                        by_cases h12 : a = "intlbackslash".data
                        · rw [if_pos h12] at h
                          injection h with h
                          subst h
                          decide
                        · rw [if_neg h12] at h
                          exact Option.noConfusion h

lemma namedKey_keyGood {l k : Str} (h : namedKey l = some k) : KeyGood k := by
  rw [namedKey] at h
  by_cases h1 : l = "space".data
  · rw [if_pos h1] at h
    injection h with h
    subst h
    decide
  · rw [if_neg h1] at h
    by_cases h2 : l = "enter".data
    · rw [if_pos h2] at h
      injection h with h
      subst h
      decide
    · rw [if_neg h2] at h
      by_cases h3 : l = "tab".data
      · rw [if_pos h3] at h
        injection h with h
        subst h
        decide
      · rw [if_neg h3] at h
        by_cases h4 : l = "escape".data ∨ l = "esc".data
        · rw [if_pos h4] at h
          injection h with h
          subst h
          decide
        · rw [if_neg h4] at h
          by_cases h5 : l = "backspace".data
          · rw [if_pos h5] at h
            injection h with h
            subst h
            decide
          · rw [if_neg h5] at h
            exact Option.noConfusion h

lemma digitName_keyGood {l k : Str} (h : digitName l = some k) : KeyGood k := by
  unfold digitName at h
  split at h
  · rename_i c
    split at h
    · rename_i hc
      injection h with h
      subst h
      rw [show c = Char.ofNat c.toNat from (Char.ofNat_toNat c).symm]
      exact keyGood_digit c.toNat (by omega) (by omega)
    · exact Option.noConfusion h
  · exact Option.noConfusion h

lemma singleDigitTok_keyGood {l k : Str} (h : singleDigitTok l = some k) : KeyGood k := by
  unfold singleDigitTok at h
  split at h
  · rename_i c
    split at h
    · rename_i hc
      injection h with h
      subst h
      rw [show c = Char.ofNat c.toNat from (Char.ofNat_toNat c).symm]
      exact keyGood_digit c.toNat (by omega) (by omega)
    · exact Option.noConfusion h
  · exact Option.noConfusion h

lemma keyLetter_keyGood {l k : Str} (h : keyLetter l = some k) : KeyGood k := by
  unfold keyLetter at h
  split at h
  · rename_i c
    split at h
    · rename_i hc
      injection h with h
      subst h
      rw [upperChar_in_range hc]
      exact keyGood_upper (c.toNat - 32) (by omega) (by omega)
    · exact Option.noConfusion h
  · exact Option.noConfusion h

lemma singleLetter_keyGood {l k : Str} (h : singleLetter l = some k) : KeyGood k := by
  unfold singleLetter at h
  split at h
  · rename_i c
    split at h
    · rename_i hc
      injection h with h
      subst h
      rw [upperChar_in_range hc]
      exact keyGood_upper (c.toNat - 32) (by omega) (by omega)
    · exact Option.noConfusion h
  · exact Option.noConfusion h

lemma fKey_keyGood {l k : Str} (h : fKey l = some k) : KeyGood k := by
  unfold fKey at h
  split at h
  · rename_i c
    split at h
    · rename_i hc
      injection h with h
      subst h
      have hf : upperStr ['f', c] = ['F', c] := by
        simp only [upperStr, List.map]
        rw [show upperChar 'f' = 'F' from by decide, upperChar_out_range (c := c) (by omega)]
      rw [hf, show c = Char.ofNat c.toNat from (Char.ofNat_toNat c).symm]
      exact keyGood_fkey1 c.toNat (by omega) (by omega)
    · exact Option.noConfusion h
  · rename_i c
    split at h
    · rename_i hc
      injection h with h
      subst h
      have hf : upperStr ['f', '1', c] = ['F', '1', c] := by
        simp only [upperStr, List.map]
        rw [show upperChar 'f' = 'F' from by decide,
          show upperChar '1' = '1' from by decide,
          upperChar_out_range (c := c) (by omega)]
      rw [hf, show c = Char.ofNat c.toNat from (Char.ofNat_toNat c).symm]
      exact keyGood_fkey2 c.toNat (by omega) (by omega)
    · exact Option.noConfusion h
  · exact Option.noConfusion h

lemma keyGood_of_normalizeKeyToken {p k : Str} (h : normalizeKeyToken p = some k) :
    KeyGood k := by
  rw [normalizeKeyToken] at h
  by_cases ht : trimStr p = []
  · rw [if_pos ht] at h
    exact Option.noConfusion h
  · rw [if_neg ht] at h
    rcases (Option.orElse_eq_some _ _ _).mp h with h1 | ⟨_, h⟩
    · exact punctuationKey_keyGood h1
    rcases (Option.orElse_eq_some _ _ _).mp h with h1 | ⟨_, h⟩
    · exact digitName_keyGood h1
    rcases (Option.orElse_eq_some _ _ _).mp h with h1 | ⟨_, h⟩
    · exact singleDigitTok_keyGood h1
    rcases (Option.orElse_eq_some _ _ _).mp h with h1 | ⟨_, h⟩
    · exact keyLetter_keyGood h1
    rcases (Option.orElse_eq_some _ _ _).mp h with h1 | ⟨_, h⟩
    · exact singleLetter_keyGood h1
    rcases (Option.orElse_eq_some _ _ _).mp h with h1 | ⟨_, h⟩
    · exact fKey_keyGood h1
    exact namedKey_keyGood h


lemma processParts_mods :
    ∀ (l : List Str) (acc : List Str) (okey : Option Str) (mods : List Str)
      (okey2 : Option Str),
      processParts l acc okey = some (mods, okey2) →
      mods = acc ++ l.filterMap (fun p => modifierAlias (lowerStr p)) := by
  intro l
  induction l with
  | nil =>
    intro acc okey mods okey2 h
    simp only [processParts, Option.some.injEq, Prod.mk.injEq] at h
    simp [h.1.symm]
  | cons p rest ih =>
    intro acc okey mods okey2 h
    cases halias : modifierAlias (lowerStr p) with
    | some m =>
      simp only [processParts, halias] at h
      have := ih (acc ++ [m]) okey mods okey2 h
      simp [List.filterMap_cons, halias, this]
    | none =>
      simp only [processParts, halias] at h
      cases okey with
      | some k0 => exact Option.noConfusion h
      | none =>
        cases hkey : normalizeKeyToken p with
        | none => rw [hkey] at h; exact Option.noConfusion h
        | some k1 =>
          rw [hkey] at h
          have := ih acc (some k1) mods okey2 h
          simp [List.filterMap_cons, halias, this]

lemma processParts_okey_some :
    ∀ (l : List Str) (acc : List Str) (k0 : Str) (mods : List Str) (okey2 : Option Str),
      processParts l acc (some k0) = some (mods, okey2) → okey2 = some k0 := by
  intro l
  induction l with
  | nil =>
    intro acc k0 mods okey2 h
    simp only [processParts, Option.some.injEq, Prod.mk.injEq] at h
    exact h.2.symm
  | cons p rest ih =>
    intro acc k0 mods okey2 h
    cases halias : modifierAlias (lowerStr p) with
    | some m =>
      simp only [processParts, halias] at h
      exact ih (acc ++ [m]) k0 mods okey2 h
    | none =>
      simp only [processParts, halias] at h
      exact Option.noConfusion h

lemma processParts_key_exists :
    ∀ (l : List Str) (acc : List Str) (mods : List Str) (k : Str),
      processParts l acc none = some (mods, some k) →
      ∃ p ∈ l, modifierAlias (lowerStr p) = none ∧ normalizeKeyToken p = some k := by
  intro l
  induction l with
  | nil =>
    intro acc mods k h
    simp only [processParts, Option.some.injEq, Prod.mk.injEq] at h
    exact Option.noConfusion h.2
  | cons p rest ih =>
    intro acc mods k h
    cases halias : modifierAlias (lowerStr p) with
    | some m =>
      simp only [processParts, halias] at h
      obtain ⟨q, hq, hcond⟩ := ih (acc ++ [m]) mods k h
      exact ⟨q, List.mem_cons_of_mem _ hq, hcond⟩
    | none =>
      simp only [processParts, halias] at h
      cases hkey : normalizeKeyToken p with
      | none => rw [hkey] at h; exact Option.noConfusion h
      | some k1 =>
        rw [hkey] at h
        have hkk : k = k1 := by
          have := processParts_okey_some rest acc k1 mods (some k) h
          injection this
        subst hkk
        exact ⟨p, List.mem_cons_self _ _, halias, hkey⟩


lemma nonModifierCount_cons_alias {p m : Str} (h : modifierAlias (lowerStr p) = some m)
    (rest : List Str) : nonModifierCount (p :: rest) = nonModifierCount rest := by
  simp [nonModifierCount, List.countP_cons, h]

lemma nonModifierCount_cons_nonalias {p : Str} (h : modifierAlias (lowerStr p) = none)
    (rest : List Str) : nonModifierCount (p :: rest) = nonModifierCount rest + 1 := by
  simp [nonModifierCount, List.countP_cons, h]

lemma processParts_nonmod_le :
    ∀ (l : List Str) (acc : List Str) (okey : Option Str) (res : List Str × Option Str),
      processParts l acc okey = some res →
      nonModifierCount l + (if okey.isSome then 1 else 0) ≤ 1 := by
  intro l
  induction l with
  | nil =>
    intro acc okey res _
    simp [nonModifierCount]
    split <;> omega
  | cons p rest ih =>
    intro acc okey res h
    cases halias : modifierAlias (lowerStr p) with
    | some m =>
      simp only [processParts, halias] at h
      have := ih (acc ++ [m]) okey res h
      rw [nonModifierCount_cons_alias halias]
      omega
    | none =>
      simp only [processParts, halias] at h
      cases okey with
      | some k0 => exact Option.noConfusion h
      | none =>
        cases hkey : normalizeKeyToken p with
        | none => rw [hkey] at h; exact Option.noConfusion h
        | some k1 =>
          rw [hkey] at h
          have := ih acc (some k1) res h
          rw [nonModifierCount_cons_nonalias halias]
          norm_num at this ⊢
          omega

lemma processParts_alias_only :
    ∀ (l : List Str) (acc : List Str) (okey : Option Str),
      (∀ p ∈ l, modifierAlias (lowerStr p) ≠ none) →
      processParts l acc okey =
        some (acc ++ l.filterMap (fun p => modifierAlias (lowerStr p)), okey) := by
  intro l
  induction l with
  | nil => intro acc okey _; simp [processParts]
  | cons p rest ih =>
    intro acc okey hall
    cases halias : modifierAlias (lowerStr p) with
    | none => exact absurd halias (hall p (List.mem_cons_self _ _))
    | some m =>
      simp only [processParts, halias]
      rw [ih (acc ++ [m]) okey (fun q hq => hall q (List.mem_cons_of_mem _ hq))]
      simp [List.filterMap_cons, halias]

lemma processParts_nonmod_some :
    ∀ (l : List Str) (acc : List Str) (k0 : Str) (p : Str),
      p ∈ l → modifierAlias (lowerStr p) = none →
      processParts l acc (some k0) = none := by
  intro l
  induction l with
  | nil => intro acc k0 p hp; cases hp
  | cons q rest ih =>
    intro acc k0 p hp hpal
    cases halias : modifierAlias (lowerStr q) with
    | none => simp [processParts, halias]
    | some m =>
      simp only [processParts, halias]
      rcases List.mem_cons.mp hp with rfl | hmem
      · rw [halias] at hpal; exact Option.noConfusion hpal
      · exact ih (acc ++ [m]) k0 p hmem hpal

lemma processParts_bad_none :
    ∀ (l : List Str) (acc : List Str) (okey : Option Str) (p : Str),
      p ∈ l → modifierAlias (lowerStr p) = none → normalizeKeyToken p = none →
      processParts l acc okey = none := by
  intro l
  induction l with
  | nil => intro acc okey p hp; cases hp
  | cons q rest ih =>
    intro acc okey p hp hpal hpkey
    cases halias : modifierAlias (lowerStr q) with
    | some m =>
      simp only [processParts, halias]
      rcases List.mem_cons.mp hp with rfl | hmem
      · rw [halias] at hpal; exact Option.noConfusion hpal
      · exact ih (acc ++ [m]) okey p hmem hpal hpkey
    | none =>
      simp only [processParts, halias]
      cases okey with
      | some k0 => rfl
      | none =>
        rcases List.mem_cons.mp hp with rfl | hmem
        · rw [hpkey]
        · cases hkey : normalizeKeyToken q with
          | none => rfl
          | some k1 => exact ih acc (some k1) p hmem hpal hpkey

lemma processParts_success_of :
    ∀ (l : List Str) (acc : List Str),
      nonModifierCount l = 1 →
      (∀ p ∈ l, modifierAlias (lowerStr p) = none → normalizeKeyToken p ≠ none) →
      ∃ mods k, processParts l acc none = some (mods, some k) := by
  intro l
  induction l with
  | nil =>
    intro acc hcnt
    simp [nonModifierCount] at hcnt
  | cons p rest ih =>
    intro acc hcnt hgood
    cases halias : modifierAlias (lowerStr p) with
    | some m =>
      have hcnt' : nonModifierCount rest = 1 := by
        rw [nonModifierCount_cons_alias halias] at hcnt
        exact hcnt
      obtain ⟨mods, k, hres⟩ :=
        ih (acc ++ [m]) hcnt' (fun q hq => hgood q (List.mem_cons_of_mem _ hq))
      refine ⟨mods, k, ?_⟩
      simp only [processParts, halias]
      exact hres
    | none =>
      have hcnt' : nonModifierCount rest = 0 := by
        rw [nonModifierCount_cons_nonalias halias] at hcnt
        omega
      have hall : ∀ q ∈ rest, modifierAlias (lowerStr q) ≠ none := by
        intro q hq hqal
        have : 0 < nonModifierCount rest := by
          simp only [nonModifierCount]
          rw [List.countP_pos_iff]
          exact ⟨q, hq, by simp [hqal]⟩
        omega
      cases hkey : normalizeKeyToken p with
      | none => exact absurd hkey (hgood p (List.mem_cons_self _ _) halias)
      | some k1 =>
        refine ⟨acc ++ rest.filterMap (fun q => modifierAlias (lowerStr q)), k1, ?_⟩
        simp only [processParts, halias]
        rw [hkey]
        exact processParts_alias_only rest acc (some k1) hall


lemma splitPlusAux_no_plus : ∀ (s acc : Str), '+' ∉ s →
    splitPlusAux s acc = [acc.reverse ++ s] := by
  intro s
  induction s with
  | nil => intro acc _; simp [splitPlusAux]
  | cons c rest ih =>
    intro acc hnp
    have hc : ¬ c = '+' := by rintro rfl; exact hnp (List.mem_cons_self _ _)
    simp only [splitPlusAux, if_neg hc]
    rw [ih (c :: acc) (fun hm => hnp (List.mem_cons_of_mem _ hm))]
    simp

lemma splitPlusAux_break : ∀ (x r acc : Str), '+' ∉ x →
    splitPlusAux (x ++ '+' :: r) acc = (acc.reverse ++ x) :: splitPlusAux r [] := by
  intro x
  induction x with
  | nil => intro r acc _; simp [splitPlusAux]
  | cons c rest ih =>
    intro r acc hnp
    have hc : ¬ c = '+' := by rintro rfl; exact hnp (List.mem_cons_self _ _)
    simp only [List.cons_append, splitPlusAux, if_neg hc, List.append_eq]
    rw [ih r (c :: acc) (fun hm => hnp (List.mem_cons_of_mem _ hm))]
    simp

lemma splitPlus_joinPlus : ∀ (l : List Str), l ≠ [] → (∀ x ∈ l, '+' ∉ x) →
    splitPlus (joinPlus l) = l := by
  intro l
  induction l with
  | nil => intro h _; exact absurd rfl h
  | cons x rest ih =>
    intro _ hnp
    cases rest with
    | nil =>
      simp only [joinPlus, splitPlus]
      rw [splitPlusAux_no_plus x [] (hnp x (List.mem_cons_self _ _))]
      simp
    | cons y ys =>
      simp only [joinPlus, splitPlus]
      rw [splitPlusAux_break x (joinPlus (y :: ys)) [] (hnp x (List.mem_cons_self _ _))]
      simp only [List.reverse_nil, List.nil_append]
      congr 1
      exact ih (by simp) (fun q hq => hnp q (List.mem_cons_of_mem _ hq))

lemma joinPlus_ne_nil {x : Str} (rest : List Str) (hx : x ≠ []) :
    joinPlus (x :: rest) ≠ [] := by
  cases rest with
  | nil => simpa [joinPlus] using hx
  | cons y ys => simp [joinPlus]

lemma canonicalParts_of_good (l : List Str) (hne : l ≠ [])
    (hgood : ∀ x ∈ l, trimStr x = x ∧ x ≠ [] ∧ '+' ∉ x) :
    canonicalParts (joinPlus l) = l := by
  rw [canonicalParts, splitPlus_joinPlus l hne (fun x hx => (hgood x hx).2.2)]
  have hmap : l.map trimStr = l := by
    conv_rhs => rw [← List.map_id l]
    exact List.map_congr_left (fun x hx => (hgood x hx).1)
  rw [hmap]
  rw [List.filter_eq_self.mpr]
  intro x hx
  simp [List.isEmpty_iff, (hgood x hx).2.1]

lemma modifierAlias_mem {s m : Str} (h : modifierAlias s = some m) :
    m ∈ MODIFIER_ORDER := by
  rw [modifierAlias] at h
  by_cases h1 : s = "cmd".data ∨ s = "command".data ∨ s = "super".data ∨ s = "meta".data
  · rw [if_pos h1] at h; injection h with h; subst h; decide
  · rw [if_neg h1] at h
    by_cases h2 : s = "shift".data
    · rw [if_pos h2] at h; injection h with h; subst h; decide
    · rw [if_neg h2] at h
      by_cases h3 : s = "alt".data ∨ s = "option".data
      · rw [if_pos h3] at h; injection h with h; subst h; decide
      · rw [if_neg h3] at h
        by_cases h4 : s = "ctrl".data ∨ s = "control".data
        · rw [if_pos h4] at h; injection h with h; subst h; decide
        · rw [if_neg h4] at h; exact Option.noConfusion h

lemma processParts_alias_lead :
    ∀ (ms rest acc : List Str) (okey : Option Str),
      (∀ m ∈ ms, modifierAlias (lowerStr m) = some m) →
      processParts (ms ++ rest) acc okey = processParts rest (acc ++ ms) okey := by
  intro ms
  induction ms with
  | nil => intro rest acc okey _; simp
  | cons m tail ih =>
    intro rest acc okey hall
    have hm := hall m (List.mem_cons_self _ _)
    simp only [List.cons_append, processParts, hm, List.append_eq]
    rw [ih rest (acc ++ [m]) okey (fun q hq => hall q (List.mem_cons_of_mem _ hq))]
    simp

lemma normalize_some_struct {s t : Str} (h : normalizeShortcutString s = some t) :
    ∃ mods k, processParts (canonicalParts s) [] none = some (mods, some k) ∧
      2 ≤ (canonicalParts s).length ∧ mods ≠ [] ∧
      t = joinPlus ((MODIFIER_ORDER.filter (fun m => decide (m ∈ mods))) ++ [k]) := by
  rw [normalizeShortcutString] at h
  by_cases hs : s = []
  · rw [if_pos hs] at h; exact Option.noConfusion h
  · rw [if_neg hs] at h
    by_cases hlen : (canonicalParts s).length < 2
    · rw [if_pos hlen] at h; exact Option.noConfusion h
    · rw [if_neg hlen] at h
      cases hpp : processParts (canonicalParts s) [] none with
      | none => rw [hpp] at h; exact Option.noConfusion h
      | some res =>
        obtain ⟨mods, okey⟩ := res
        rw [hpp] at h
        cases okey with
        | none => exact Option.noConfusion h
        | some key =>
          have h2 : (if mods = [] then none
              else some (joinPlus
                ((MODIFIER_ORDER.filter (fun m => decide (m ∈ mods))) ++ [key]))) =
              some t := h
          by_cases hm : mods = []
          · rw [if_pos hm] at h2
            exact Option.noConfusion h2
          · rw [if_neg hm] at h2
            injection h2 with h2
            exact ⟨mods, key, rfl, by omega, hm, h2.symm⟩


lemma canonicalParts_nil : canonicalParts [] = [] := by decide

lemma normalize_ne_none_of (s : Str)
    (hlen : 2 ≤ (canonicalParts s).length)
    (hcnt : nonModifierCount (canonicalParts s) = 1)
    (hgood : ∀ p ∈ canonicalParts s, modifierAlias (lowerStr p) = none →
      normalizeKeyToken p ≠ none) :
    normalizeShortcutString s ≠ none := by
  have hs : s ≠ [] := by
    rintro rfl
    rw [canonicalParts_nil] at hlen
    simp at hlen
  obtain ⟨mods, k, hpp⟩ := processParts_success_of (canonicalParts s) [] hcnt hgood
  have hmodsval := processParts_mods _ [] none mods (some k) hpp
  simp only [List.nil_append] at hmodsval
  have hex : ∃ q ∈ canonicalParts s, modifierAlias (lowerStr q) ≠ none := by
    by_contra hno
    push_neg at hno
    have hfull : nonModifierCount (canonicalParts s) = (canonicalParts s).length := by
      rw [nonModifierCount, List.countP_eq_length]
      intro p hp
      simp [hno p hp]
    omega
  obtain ⟨q, hq, hqal⟩ := hex
  obtain ⟨m, hme⟩ := Option.ne_none_iff_exists'.mp hqal
  have hmmem : m ∈ mods := by
    rw [hmodsval]
    exact List.mem_filterMap.mpr ⟨q, hq, hme⟩
  have hmodsne : mods ≠ [] := List.ne_nil_of_mem hmmem
  rw [normalizeShortcutString, if_neg hs, if_neg (by omega), hpp]
  intro hcontra
  have h2 : (if mods = [] then none
      else some (joinPlus
        ((MODIFIER_ORDER.filter (fun m => decide (m ∈ mods))) ++ [k]))) =
      (none : Option Str) := hcontra
  rw [if_neg hmodsne] at h2
  exact Option.noConfusion h2

lemma normalize_none_of_short {s : Str} (h : (canonicalParts s).length < 2) :
    normalizeShortcutString s = none := by
  rw [normalizeShortcutString]
  by_cases hs : s = []
  · rw [if_pos hs]
  · rw [if_neg hs, if_pos h]

lemma normalize_none_of_many {s : Str} (h : 1 < nonModifierCount (canonicalParts s)) :
    normalizeShortcutString s = none := by
  by_cases hlen : (canonicalParts s).length < 2
  · exact normalize_none_of_short hlen
  · have hs : s ≠ [] := by
      rintro rfl
      rw [canonicalParts_nil] at hlen
      simp at hlen
    rw [normalizeShortcutString, if_neg hs, if_neg hlen]
    cases hpp : processParts (canonicalParts s) [] none with
    | none => rfl
    | some res =>
      have hle := processParts_nonmod_le _ [] none res hpp
      simp at hle
      omega

lemma normalize_none_of_zero {s : Str} (h : nonModifierCount (canonicalParts s) = 0) :
    normalizeShortcutString s = none := by
  by_cases hlen : (canonicalParts s).length < 2
  · exact normalize_none_of_short hlen
  · have hs : s ≠ [] := by
      rintro rfl
      rw [canonicalParts_nil] at hlen
      simp at hlen
    rw [normalizeShortcutString, if_neg hs, if_neg hlen]
    cases hpp : processParts (canonicalParts s) [] none with
    | none => rfl
    | some res =>
      obtain ⟨mods, okey⟩ := res
      cases okey with
      | none => rfl
      | some k =>
        obtain ⟨p, hp, hpal, _⟩ := processParts_key_exists _ [] mods k hpp
        have hpos : 0 < nonModifierCount (canonicalParts s) := by
          rw [nonModifierCount, List.countP_pos_iff]
          exact ⟨p, hp, by simp [hpal]⟩
        omega

lemma normalize_none_of_bad {s p : Str} (hp : p ∈ canonicalParts s)
    (h1 : modifierAlias (lowerStr p) = none) (h2 : normalizeKeyToken p = none) :
    normalizeShortcutString s = none := by
  by_cases hlen : (canonicalParts s).length < 2
  · exact normalize_none_of_short hlen
  · have hs : s ≠ [] := by
      rintro rfl
      rw [canonicalParts_nil] at hlen
      simp at hlen
    rw [normalizeShortcutString, if_neg hs, if_neg hlen,
      processParts_bad_none _ [] none p hp h1 h2]

/-- Claim C3 counterexample: the claim's four failure conditions do not
    cover `"Shift+Alt"`: normalization fails on it (two modifiers, zero key
    tokens), yet it has 2 tokens, at most one non-modifier token, at least
    one modifier, and every token matches a modifier alias or key spelling
    — so "fails exactly when ..." is false as stated. -/
theorem claim_C3_counterexample :
    normalizeShortcutString ("Shift+Alt").data = none ∧
    ¬((canonicalParts ("Shift+Alt").data).length < 2 ∨
      1 < nonModifierCount (canonicalParts ("Shift+Alt").data) ∨
      (∀ p ∈ canonicalParts ("Shift+Alt").data, modifierAlias (lowerStr p) = none) ∨
      (∃ p ∈ canonicalParts ("Shift+Alt").data,
        modifierAlias (lowerStr p) = none ∧ normalizeKeyToken p = none)) := by
  exact ⟨by decide, by decide⟩

/-- Claim C3 (amended): normalize fails exactly when the input has fewer
    than 2 tokens, more than one non-modifier token, zero non-modifier
    tokens (no key), zero modifiers, or a token matching neither a modifier
    alias nor a recognized key spelling; in particular "Shift+Alt" and "a"
    both fail. -/
theorem claim_C3_failure_conditions :
    (∀ s : Str, normalizeShortcutString s = none ↔
      ((canonicalParts s).length < 2 ∨
       1 < nonModifierCount (canonicalParts s) ∨
       nonModifierCount (canonicalParts s) = 0 ∨
       (∀ p ∈ canonicalParts s, modifierAlias (lowerStr p) = none) ∨
       (∃ p ∈ canonicalParts s,
         modifierAlias (lowerStr p) = none ∧ normalizeKeyToken p = none))) ∧
    normalizeShortcutString ("Shift+Alt").data = none ∧
    normalizeShortcutString ("a").data = none := by
  refine ⟨?_, by decide, by decide⟩
  intro s
  constructor
  · intro h
    by_cases hlen : (canonicalParts s).length < 2
    · exact Or.inl hlen
    by_cases hmany : 1 < nonModifierCount (canonicalParts s)
    · exact Or.inr (Or.inl hmany)
    by_cases hzero : nonModifierCount (canonicalParts s) = 0
    · exact Or.inr (Or.inr (Or.inl hzero))
    by_cases hbad : ∃ p ∈ canonicalParts s,
      modifierAlias (lowerStr p) = none ∧ normalizeKeyToken p = none
    · exact Or.inr (Or.inr (Or.inr (Or.inr hbad)))
    exfalso
    push_neg at hbad
    exact normalize_ne_none_of s (by omega) (by omega)
      (fun p hp hal => hbad p hp hal) h
  · rintro (hlen | hmany | hzero | hall | ⟨p, hp, h1, h2⟩)
    · exact normalize_none_of_short hlen
    · exact normalize_none_of_many hmany
    · exact normalize_none_of_zero hzero
    · by_cases hlen : (canonicalParts s).length < 2
      · exact normalize_none_of_short hlen
      · refine normalize_none_of_many ?_
        have hfull : nonModifierCount (canonicalParts s) = (canonicalParts s).length := by
          rw [nonModifierCount, List.countP_eq_length]
          intro p hp
          simp [hall p hp]
        omega
    · exact normalize_none_of_bad hp h1 h2

theorem claim_C3_witness : normalizeShortcutString ("a").data = none :=
  claim_C3_failure_conditions.2.2


/-- Claim C2: on every accepted input, the output is the `+`-joined string
    of the input's modifiers — deduplicated and emitted in the fixed order
    Cmd, Shift, Alt, Ctrl, by membership only (hence independent of input
    order and case) — followed by the single normalized key token last; in
    particular normalize("shift+cmd+3") = "Cmd+Shift+3". -/
theorem claim_C2_canonical_order (s t : Str) (h : normalizeShortcutString s = some t) :
    (∃ k, (∃ p ∈ canonicalParts s,
        modifierAlias (lowerStr p) = none ∧ normalizeKeyToken p = some k) ∧
      t = joinPlus
        ((MODIFIER_ORDER.filter
            (fun m => decide (∃ q ∈ canonicalParts s,
              modifierAlias (lowerStr q) = some m))) ++ [k])) ∧
    normalizeShortcutString ("shift+cmd+3").data = some (("Cmd+Shift+3").data) := by
  obtain ⟨mods, k, hpp, hlen, hmods, ht⟩ := normalize_some_struct h
  have hmodsval := processParts_mods _ [] none mods (some k) hpp
  simp only [List.nil_append] at hmodsval
  obtain ⟨p, hp, hpal, hpkey⟩ := processParts_key_exists _ [] mods k hpp
  refine ⟨⟨k, ⟨p, hp, hpal, hpkey⟩, ?_⟩, by decide⟩
  have hfe : MODIFIER_ORDER.filter (fun m => decide (m ∈ mods)) =
      MODIFIER_ORDER.filter (fun m => decide (∃ q ∈ canonicalParts s,
        modifierAlias (lowerStr q) = some m)) := by
    apply List.filter_congr
    intro m _
    rw [decide_eq_decide, hmodsval]
    exact List.mem_filterMap
  rw [ht, hfe]

theorem claim_C2_witness :
    normalizeShortcutString ("shift+cmd+3").data = some (("Cmd+Shift+3").data) :=
  (claim_C2_canonical_order (("shift+cmd+3").data) (("Cmd+Shift+3").data) (by decide)).2

lemma not_plus_mem_replFuel : ∀ (n : Nat) (s : Str), s.length ≤ n →
    '+' ∉ replFuel ['+'] [] n s := by
  intro n
  induction n with
  | zero =>
    intro s hs
    have hnil : s = [] := List.length_eq_zero.mp (Nat.le_zero.mp hs)
    subst hnil
    simp [replFuel]
  | succ n ihn =>
    intro s hs
    cases s with
    | nil => simp [replFuel]
    | cons c rest =>
      simp only [replFuel]
      split
      · rename_i hcond
        have hd : (c :: rest).drop (['+'] : Str).length = rest := rfl
        rw [hd]
        simp only [List.nil_append]
        exact ihn rest (by simpa using Nat.le_of_succ_le_succ hs)
      · rename_i hcond
        intro hmem
        rcases List.mem_cons.mp hmem with heq | hmem2
        · apply hcond
          cases heq
          exact ⟨by simp, by simp [leadsWith]⟩
        · exact ihn rest (by simpa using Nat.le_of_succ_le_succ hs) hmem2

/-- Claim C5: formatForDisplay is total; it renders the normalized form
    when normalization succeeds and falls back to the raw input string fed
    unmodified into the same rendering when it fails; the rendering maps
    Cmd/Shift/Alt/Ctrl to their glyphs and removes every `+` delimiter, so
    formatForDisplay("Cmd+Shift+3") = "⌘⇧3". -/
theorem claim_C5_display_format :
    (∀ s : Str, normalizeShortcutString s = none →
        formatShortcutForDisplay s = renderShortcutGlyphs s) ∧
    (∀ s t : Str, normalizeShortcutString s = some t →
        formatShortcutForDisplay s = renderShortcutGlyphs t) ∧
    (∀ s : Str, '+' ∉ formatShortcutForDisplay s) ∧
    formatShortcutForDisplay ("Cmd+Shift+3").data = ("⌘⇧3").data ∧
    renderShortcutGlyphs ("Cmd".data) = ['⌘'] ∧
    renderShortcutGlyphs ("Shift".data) = ['⇧'] ∧
    renderShortcutGlyphs ("Alt".data) = ['⌥'] ∧
    renderShortcutGlyphs ("Ctrl".data) = ['⌃'] := by
  refine ⟨?_, ?_, ?_, by decide, by decide, by decide, by decide, by decide⟩
  · intro s hnone
    rw [formatShortcutForDisplay, hnone]
    rfl
  · intro s t hsome
    rw [formatShortcutForDisplay, hsome]
    rfl
  · intro s
    rw [formatShortcutForDisplay, renderShortcutGlyphs, replaceStr]
    exact not_plus_mem_replFuel _ _ (le_refl _)

theorem claim_C5_witness :
    formatShortcutForDisplay ("++").data = renderShortcutGlyphs ("++").data :=
  claim_C5_display_format.1 (("++").data) (by decide)

/-- Claim C4: normalize is idempotent on its own output — whenever
    normalize(s) succeeds with t, normalize(t) succeeds and returns t. -/
theorem claim_C4_normalize_idempotent (s t : Str)
    (h : normalizeShortcutString s = some t) :
    normalizeShortcutString t = some t := by
  obtain ⟨mods, k, hpp, hlen, hmods, ht⟩ := normalize_some_struct h
  have hmodsval := processParts_mods _ [] none mods (some k) hpp
  simp only [List.nil_append] at hmodsval
  obtain ⟨p, hp, hpal, hpkey⟩ := processParts_key_exists _ [] mods k hpp
  obtain ⟨hkk, hkal, hkne, hktrim, hkplus⟩ := keyGood_of_normalizeKeyToken hpkey
  have hmodgood : ∀ m ∈ MODIFIER_ORDER,
      modifierAlias (lowerStr m) = some m ∧ trimStr m = m ∧ m ≠ [] ∧ '+' ∉ m := by decide
  have hmem_mods : ∀ m ∈ mods, m ∈ MODIFIER_ORDER := by
    intro m hm
    rw [hmodsval] at hm
    obtain ⟨q, _, hqa⟩ := List.mem_filterMap.mp hm
    exact modifierAlias_mem hqa
  have hsub : ∀ m ∈ MODIFIER_ORDER.filter (fun m => decide (m ∈ mods)),
      m ∈ MODIFIER_ORDER := fun m hm => (List.mem_filter.mp hm).1
  have hmods'ne : MODIFIER_ORDER.filter (fun m => decide (m ∈ mods)) ≠ [] := by
    obtain ⟨m0, hm0⟩ := List.exists_mem_of_ne_nil mods hmods
    exact List.ne_nil_of_mem (List.mem_filter.mpr ⟨hmem_mods m0 hm0, by simpa using hm0⟩)
  have hallgood : ∀ x ∈ (MODIFIER_ORDER.filter (fun m => decide (m ∈ mods))) ++ [k],
      trimStr x = x ∧ x ≠ [] ∧ '+' ∉ x := by
    intro x hx
    rcases List.mem_append.mp hx with hx | hx
    · obtain ⟨_, h2, h3, h4⟩ := hmodgood x (hsub x hx)
      exact ⟨h2, h3, h4⟩
    · rw [List.mem_singleton] at hx
      subst hx
      exact ⟨hktrim, hkne, hkplus⟩
  have hparts : canonicalParts t =
      (MODIFIER_ORDER.filter (fun m => decide (m ∈ mods))) ++ [k] := by
    rw [ht]
    exact canonicalParts_of_good _ (by simp) hallgood
  have htne : t ≠ [] := by
    rw [ht]
    cases hfm : MODIFIER_ORDER.filter (fun m => decide (m ∈ mods)) with
    | nil => exact absurd hfm hmods'ne
    | cons m0 ms =>
      have hm0 : m0 ∈ MODIFIER_ORDER := by
        refine hsub m0 ?_
        rw [hfm]
        exact List.mem_cons_self _ _
      rw [List.cons_append]
      exact joinPlus_ne_nil _ ((hmodgood m0 hm0).2.2.1)
  have hpp2 : processParts
      ((MODIFIER_ORDER.filter (fun m => decide (m ∈ mods))) ++ [k]) [] none =
      some (MODIFIER_ORDER.filter (fun m => decide (m ∈ mods)), some k) := by
    rw [processParts_alias_lead _ [k] [] none
      (fun m hm => (hmodgood m (hsub m hm)).1)]
    simp only [List.nil_append, processParts, hkal, hkk]
  have hfilter : MODIFIER_ORDER.filter
      (fun m => decide (m ∈ MODIFIER_ORDER.filter (fun m => decide (m ∈ mods)))) =
      MODIFIER_ORDER.filter (fun m => decide (m ∈ mods)) := by
    apply List.filter_congr
    intro m hm
    rw [decide_eq_decide]
    constructor
    · intro hmm
      simpa using (List.mem_filter.mp hmm).2
    · intro hmm
      exact List.mem_filter.mpr ⟨hm, by simpa using hmm⟩
  have hlen2 : ¬((canonicalParts t).length < 2) := by
    rw [hparts]
    simp only [List.length_append, List.length_singleton]
    have := List.length_pos.mpr hmods'ne
    omega
  rw [normalizeShortcutString, if_neg htne, if_neg hlen2, hparts, hpp2]
  show (if MODIFIER_ORDER.filter (fun m => decide (m ∈ mods)) = [] then none
    else some (joinPlus
      ((MODIFIER_ORDER.filter (fun m => decide
          (m ∈ MODIFIER_ORDER.filter (fun m => decide (m ∈ mods))))) ++ [k]))) = some t
  rw [if_neg hmods'ne, hfilter, ht]

theorem claim_C4_witness :
    normalizeShortcutString ("Cmd+Shift+3").data = some (("Cmd+Shift+3").data) :=
  claim_C4_normalize_idempotent (("shift+cmd+3").data) (("Cmd+Shift+3").data) (by decide)

end MacScreenshot
